import Mathlib

/-!
Verification of the auto-draw-bot drawing core.

The Python sources (auto_draw.py, the GUI implementation, and
auto_draw_cli.py, the simplified command-line implementation) are embedded
shallowly: Python floats are idealised as real numbers, RGB channels and
pixel coordinates as naturals / integers, and the stateful drawing loops as
explicit list-producing functions.  Python's `x ** 0.5` is embedded as
`Real.sqrt x` (the two agree on the non-negative arguments that occur here)
and `x ** 2.4`, `x ** (1/3)` as real powers `Real.rpow`.
-/

namespace AutoDrawBot

/-- An RGB color: three 8-bit channels, used as a dictionary key in the
source; modelled as a triple of naturals. -/
abbrev Color := ℕ × ℕ × ℕ

/-- A Lab color: three float channels, idealised as reals. -/
abbrev Lab := ℝ × ℝ × ℝ

/-- sRGB gamma decompression of one normalised channel, the per-channel
`if c > 0.04045: ((c + 0.055) / 1.055) ** 2.4 else c / 12.92` step of
`AutoDraw.rgb2lab` (auto_draw.py lines 1567-1581). -/
noncomputable def gammaExpand (u : ℝ) : ℝ :=
  if u > 0.04045 then ((u + 0.055) / 1.055) ^ (2.4 : ℝ) else u / 12.92

/-- The XYZ-to-Lab auxiliary function, the per-coordinate
`if t > 0.008856: t ** (1/3) else 7.787 * t + 16/116` step of
`AutoDraw.rgb2lab` (auto_draw.py lines 1593-1604). -/
noncomputable def labF (t : ℝ) : ℝ :=
  if t > 0.008856 then t ^ ((1 : ℝ) / 3) else 7.787 * t + 16 / 116

/-- The first stage of `AutoDraw.rgb2lab` (auto_draw.py lines 1560-1581):
the locals `r`, `g`, `b` after normalising each channel to [0,1] and
gamma-decompressing it. -/
noncomputable def linChannels (c : Color) : ℝ × ℝ × ℝ :=
  (gammaExpand ((c.1 : ℝ) / 255), gammaExpand ((c.2.1 : ℝ) / 255),
    gammaExpand ((c.2.2 : ℝ) / 255))

/-- The second stage of `AutoDraw.rgb2lab` (auto_draw.py lines 1583-1586):
the locals `x`, `y`, `z`, i.e. the fixed linear transform
`x = (r * 0.4124 + g * 0.3576 + b * 0.1805) * 100` and its two siblings. -/
noncomputable def xyzStage (v : ℝ × ℝ × ℝ) : ℝ × ℝ × ℝ :=
  ((v.1 * 0.4124 + v.2.1 * 0.3576 + v.2.2 * 0.1805) * 100,
   (v.1 * 0.2126 + v.2.1 * 0.7152 + v.2.2 * 0.0722) * 100,
   (v.1 * 0.0193 + v.2.1 * 0.1192 + v.2.2 * 0.9505) * 100)

/-- The third stage of `AutoDraw.rgb2lab` (auto_draw.py lines 1588-1613):
divide XYZ by the reference white (95.047, 100.0, 108.883), apply `labF`,
and assemble `L = 116 * y - 16`, `a = 500 * (x - y)`, `b = 200 * (y - z)`. -/
noncomputable def labStage (w : ℝ × ℝ × ℝ) : Lab :=
  (116 * labF (w.2.1 / 100.0) - 16,
   500 * (labF (w.1 / 95.047) - labF (w.2.1 / 100.0)),
   200 * (labF (w.2.1 / 100.0) - labF (w.2.2 / 108.883)))

/-- `AutoDraw.rgb2lab` (auto_draw.py lines 1558-1613) as the composition of
its three stages. -/
noncomputable def rgb2lab (c : Color) : Lab := labStage (xyzStage (linChannels c))

/-- Chroma of a Lab color: `(a ** 2 + b ** 2) ** 0.5`
(auto_draw.py lines 1623-1624). -/
noncomputable def chroma (l : Lab) : ℝ := Real.sqrt (l.2.1 ^ 2 + l.2.2 ^ 2)

/-- The value under the square root of the hue-difference term:
`dhSquared = da ** 2 + db ** 2 - dC ** 2` (auto_draw.py line 1632). -/
noncomputable def dhSquared (lab1 lab2 : Lab) : ℝ :=
  (lab1.2.1 - lab2.2.1) ^ 2 + (lab1.2.2 - lab2.2.2) ^ 2 -
    (chroma lab1 - chroma lab2) ^ 2

/-- The clamped hue-difference term: `dH = 0 if dhSquared < 0 else
dhSquared ** 0.5` (auto_draw.py lines 1633-1636). -/
noncomputable def hueDiff (lab1 lab2 : Lab) : ℝ :=
  if dhSquared lab1 lab2 < 0 then 0 else Real.sqrt (dhSquared lab1 lab2)

/-- `AutoDraw.delta_e_cie94` (auto_draw.py lines 1615-1649), with the
source's locals written in place: `dL = L1 - L2`, `dC = c1 - c2`,
`dH` the clamped hue term, and the constants kL = 1, k1 = 0.045,
k2 = 0.015, sl = 1, sc = 1 + k1 * c1, sh = 1 + k2 * c1; the result is
`((dL / (kL * sl)) ** 2 + (dC / sc) ** 2 + (dH / sh) ** 2) ** 0.5`. -/
noncomputable def delta_e_cie94 (lab1 lab2 : Lab) : ℝ :=
  Real.sqrt (((lab1.1 - lab2.1) / (1 * 1)) ^ 2 +
    ((chroma lab1 - chroma lab2) / (1 + 0.045 * chroma lab1)) ^ 2 +
    (hueDiff lab1 lab2 / (1 + 0.015 * chroma lab1)) ^ 2)

/-- Perceptual distance from a pre-converted query Lab to a palette color:
the `distance = self.delta_e_cie94(lab1, lab2)` computed for each palette
entry inside `find_closest_color` (auto_draw.py lines 1546-1550). -/
noncomputable def colorDist (lab1 : Lab) (q : Color) : ℝ :=
  delta_e_cie94 lab1 (rgb2lab q)

open Classical in
/-- One iteration of the `find_closest_color` loop (auto_draw.py lines
1545-1554).  The accumulator is `none` while `closest_color is None` and
`min_distance == float(inf)`; the first computed distance is finite, so the
first iteration always takes the `distance < min_distance` branch, which the
`none` case mirrors.  The update uses strict `<`, so on ties the earlier
palette entry is kept. -/
noncomputable def fccStep (lab1 : Lab) (acc : Option (ℝ × Color)) (pc : Color) :
    Option (ℝ × Color) :=
  match acc with
  | none => some (colorDist lab1 pc, pc)
  | some (m, b) =>
      if colorDist lab1 pc < m then some (colorDist lab1 pc, pc) else some (m, b)

open Classical in
/-- `AutoDraw.find_closest_color` (auto_draw.py lines 1532-1556): return the
query unchanged on an empty palette, otherwise convert the query to Lab once
and scan the palette keeping the entry of minimum CIE94 distance.  The
`none` result branch mirrors the source returning `closest_color`
(initially `None`), which is unreachable for a non-empty palette. -/
noncomputable def find_closest_color (palette : List Color) (color : Color) :
    Color :=
  if palette = [] then color
  else
    match palette.foldl (fccStep (rgb2lab color)) none with
    | none => color
    | some (_, b) => b

/-- Lab conversions performed by one call of `find_closest_color`: none for
an empty palette (the early return precedes `lab1 = self.rgb2lab(color)`),
otherwise the query color followed by every palette entry (the loop converts
each palette color again on every call — there is no cache). -/
def fccLabCalls (palette : List Color) (color : Color) : List Color :=
  if palette = [] then [] else color :: palette

/-- Full palette scans performed by one call of `find_closest_color`:
zero for an empty palette, one otherwise. -/
def fccPaletteScans (palette : List Color) : ℕ :=
  if palette = [] then 0 else 1

/-! ## Image preprocessing and the pixel-style planner

The pixel drawing branch of `AutoDraw.draw_image` (auto_draw.py lines
2097-2237) is embedded as a plan-producing function: the loops that
interleave planning and mouse actuation are modelled as the ordered list of
actuator actions they emit when the stop flag stays clear. -/

/-- An RGBA pixel of the processed image (`img_data[y, x]`). -/
abbrev RGBA := ℕ × ℕ × ℕ × ℕ

/-- A processed bitmap: the rows of `np.array(self.processed_image)`,
iterated `for y in range(height): for x in range(width)`. -/
abbrev Bitmap := List (List RGBA)

/-- `height, width = img_data.shape[:2]`. -/
def bmpHeight (bmp : Bitmap) : ℕ := bmp.length

def bmpWidth (bmp : Bitmap) : ℕ := (bmp.headD []).length

/-- The RGB part of a pixel: `tuple(img_data[y, x][:3])`. -/
def rgbOf (p : RGBA) : Color := (p.1, p.2.1, p.2.2.1)

/-- The white-skip test of the pixel drawing loop (auto_draw.py lines
2107 and 2121): `all(c >= white_threshold for c in pixel_color)` with
`white_threshold = 245`. -/
def isWhitePixel (p : RGBA) : Bool :=
  decide (245 ≤ p.1) && decide (245 ≤ p.2.1) && decide (245 ≤ p.2.2.1)

/-- The transparency-skip test (auto_draw.py lines 2126-2128):
alpha channel equal to 0. -/
def isTransparent (p : RGBA) : Bool := decide (p.2.2.2 = 0)

/-- GUI background-marking test of `AutoDraw.process_image`
(auto_draw.py lines 1690-1698): mark a pixel as transparent when
`r >= 245 and g >= 245 and b >= 245`. -/
def isBackgroundGUI (p : RGBA) : Bool :=
  decide (245 ≤ p.1) && decide (245 ≤ p.2.1) && decide (245 ≤ p.2.2.1)

/-- CLI background-marking test of `SimpleAutoDraw.process_image`
(auto_draw_cli.py lines 85-91): mark a pixel as transparent when
`r >= 240 and g >= 240 and b >= 240`. -/
def isBackgroundCLI (p : RGBA) : Bool :=
  decide (240 ≤ p.1) && decide (240 ≤ p.2.1) && decide (240 ≤ p.2.2.1)

/-- The background test as the spec sentence words it: all three channels
strictly exceed the threshold value 245.  (Spec wording, for comparison
against the source predicates above.) -/
def isBackgroundSpec (p : RGBA) : Bool :=
  decide (245 < p.1) && decide (245 < p.2.1) && decide (245 < p.2.2.1)

/-- The background-marking pass of `AutoDraw.process_image` on one pixel
(auto_draw.py lines 1695-1700): set alpha to 0 when the GUI test holds. -/
def markBackgroundGUI (p : RGBA) : RGBA :=
  if isBackgroundGUI p then (p.1, p.2.1, p.2.2.1, 0) else p

/-- The background-marking pass of `SimpleAutoDraw.process_image` on one
pixel (auto_draw_cli.py lines 88-93). -/
def markBackgroundCLI (p : RGBA) : RGBA :=
  if isBackgroundCLI p then (p.1, p.2.1, p.2.2.1, 0) else p

/-- The target region `(x1, y1, x2, y2) = self.canvas_area`. -/
structure Region where
  x1 : ℤ
  y1 : ℤ
  x2 : ℤ
  y2 : ℤ
deriving DecidableEq

/-- A device-space point; the source computes these as Python floats from
integer region corners, here exact rationals. -/
abbrev Point := ℚ × ℚ

/-- `pixel_width = (x2 - x1) / width` (auto_draw.py line 2083). -/
def pixelWidth (r : Region) (width : ℕ) : ℚ := ((r.x2 : ℚ) - (r.x1 : ℚ)) / width

/-- `pixel_height = (y2 - y1) / height` (auto_draw.py line 2084). -/
def pixelHeight (r : Region) (height : ℕ) : ℚ :=
  ((r.y2 : ℚ) - (r.y1 : ℚ)) / height

/-- Device-space centre of bitmap pixel (x, y):
`pos_x = x1 + (x * pixel_width) + (pixel_width / 2)` and likewise for y
(auto_draw.py lines 2138-2139). -/
def pixelPos (r : Region) (pw ph : ℚ) (x y : ℕ) : Point :=
  ((r.x1 : ℚ) + x * pw + pw / 2, (r.y1 : ℚ) + y * ph + ph / 2)

/-- The pixel scan of the pixel-style planner (auto_draw.py lines
2112-2128): row-major enumeration of the bitmap keeping the pixels that are
neither near-white nor transparent, paired with their (x, y) coordinates. -/
def visiblePixels (bmp : Bitmap) : List ((ℕ × ℕ) × RGBA) :=
  bmp.enum.flatMap (fun yrow =>
    yrow.2.enum.filterMap (fun xp =>
      if isWhitePixel xp.2 || isTransparent xp.2 then none
      else some ((xp.1, yrow.1), xp.2)))

/-- Insertion-ordered dictionary update: the model of
`if key not in d: d[key] = []` followed by `d[key].append(v)`
(auto_draw.py lines 2133-2140 for `pixels_by_color` and lines 2172-2180
for `grid_cells`); Python dictionaries preserve key insertion order. -/
def upsert {κ α : Type} [DecidableEq κ] : List (κ × List α) → κ → α →
    List (κ × List α)
  | [], k, a => [(k, [a])]
  | (k', vs) :: rest, k, a =>
      if k' = k then (k', vs ++ [a]) :: rest else (k', vs) :: upsert rest k a

/-- `pixels_by_color`: group the visible pixels' device positions by their
quantized palette color (auto_draw.py lines 2129-2140).  The quantizer `q`
stands for `self.find_closest_color` with the session's palette. -/
def groupByColor (q : Color → Color) (r : Region) (pw ph : ℚ)
    (pixels : List ((ℕ × ℕ) × RGBA)) : List (Color × List Point) :=
  pixels.foldl (fun groups p =>
    upsert groups (q (rgbOf p.2)) (pixelPos r pw ph p.1.1 p.1.2)) []

/-- `sorted_colors = sorted(pixels_by_color.keys(), key=lambda c: sum(c))`
(auto_draw.py line 2149): darkest (smallest channel sum) first, stable. -/
def sortedColors (groups : List (Color × List Point)) : List Color :=
  (groups.map Prod.fst).mergeSort
    (fun a b => decide (a.1 + a.2.1 + a.2.2 ≤ b.1 + b.2.1 + b.2.2))

/-- `pixels = pixels_by_color[color]` (auto_draw.py line 2161). -/
def lookupGroup (groups : List (Color × List Point)) (c : Color) :
    List Point :=
  match groups.find? (fun g => decide (g.1 = c)) with
  | some g => g.2
  | none => []

/-- `GRID_SIZE = 20` cell key of a device point:
`int((pos - origin) // GRID_SIZE)` (auto_draw.py lines 2171-2176). -/
def gridKey (r : Region) (p : Point) : ℤ × ℤ :=
  (Int.floor ((p.1 - (r.x1 : ℚ)) / 20), Int.floor ((p.2 - (r.y1 : ℚ)) / 20))

/-- `grid_cells`: partition one color's points into 20-unit cells in key
insertion order (auto_draw.py lines 2169-2180). -/
def gridCells (r : Region) (points : List Point) :
    List ((ℤ × ℤ) × List Point) :=
  points.foldl (fun cells p => upsert cells (gridKey r p) p) []

/-- Euclidean distance between device points:
`((pixel[0] - last[0]) ** 2 + (pixel[1] - last[1]) ** 2) ** 0.5`
(auto_draw.py line 2198). -/
noncomputable def ptDist (a b : Point) : ℝ :=
  Real.sqrt ((((b.1 - a.1 : ℚ) : ℝ)) ^ 2 + (((b.2 - a.2 : ℚ) : ℝ)) ^ 2)

open Classical in
/-- The `for i, pixel in enumerate(remaining)` argmin scan of the
nearest-neighbor loop (auto_draw.py lines 2192-2201), carried out from
index `i` with current best `(bi, bd)`; the update uses strict `<`. -/
noncomputable def nearestScan (last : Point) : List Point → ℕ → ℕ × ℝ → ℕ × ℝ
  | [], _, best => best
  | p :: rest, i, (bi, bd) =>
      if ptDist last p < bd then nearestScan last rest (i + 1) (i, ptDist last p)
      else nearestScan last rest (i + 1) (bi, bd)

/-- Index of the nearest remaining point to `last`.  The source starts with
`nearest_idx = 0` and `nearest_dist = inf`; every real distance is below
infinity, so the first iteration always takes the update branch, which the
non-empty case mirrors by starting the scan at index 1 with best
`(0, dist(last, p))`. -/
noncomputable def nearestIdx (last : Point) : List Point → ℕ
  | [] => 0
  | p :: rest => (nearestScan last rest 1 (0, ptDist last p)).1

/-- The `while remaining:` loop of the nearest-neighbor ordering
(auto_draw.py lines 2190-2203): repeatedly pop the nearest remaining point
(`remaining.pop(nearest_idx)`) and append it.  Fuel is the initial length
of `remaining`; each iteration removes exactly one element. -/
noncomputable def nnLoop : ℕ → Point → List Point → List Point
  | _, _, [] => []
  | 0, _, _ :: _ => []
  | f + 1, last, p :: rest =>
      let i := nearestIdx last (p :: rest)
      let chosen := (p :: rest).getD i p
      chosen :: nnLoop f chosen ((p :: rest).eraseIdx i)

/-- The in-cell ordering step (auto_draw.py lines 2184-2206): cells with
more than one point are reordered greedily starting from the first point
(`sorted_pixels = [cell_pixels[0]]`, `remaining = cell_pixels[1:]`);
smaller cells are drawn as they are. -/
noncomputable def sortPixelsNN : List Point → List Point
  | [] => []
  | [p] => [p]
  | p :: q :: rest => p :: nnLoop (q :: rest).length p (q :: rest)

/-- The planned / executed actuator actions.  `SelectColor` stands for the
color-selection click of `set_target_color`, the rest for the pyautogui
calls `moveTo`, `click`, `mouseDown`, `moveTo` while dragging, `mouseUp`. -/
inductive PlannedAction where
  | SelectColor : Color → PlannedAction
  | MoveTo : Point → PlannedAction
  | Click : PlannedAction
  | PressDown : PlannedAction
  | DragTo : Point → PlannedAction
  | Release : PlannedAction
deriving DecidableEq

/-- Actions for one grid cell (auto_draw.py lines 2208-2215):
`pyautogui.moveTo(...)` followed by `pyautogui.click()` for each point in
nearest-neighbor order. -/
noncomputable def cellActions (cell : List Point) : List PlannedAction :=
  (sortPixelsNN cell).flatMap (fun p => [PlannedAction.MoveTo p, PlannedAction.Click])

/-- Actions for one color group (auto_draw.py lines 2152-2215): one color
selection, then the cells in key insertion order. -/
noncomputable def colorActions (r : Region) (points : List Point) (c : Color) :
    List PlannedAction :=
  PlannedAction.SelectColor c ::
    (gridCells r points).flatMap (fun cell => cellActions cell.2)

/-- The full pixel-style action stream of `AutoDraw.draw_image`
(auto_draw.py lines 2097-2237) with the stop flag clear throughout:
group the visible pixels by quantized color, then emit each color group
darkest-first. -/
noncomputable def draw_image_pixel_plan (q : Color → Color) (r : Region)
    (bmp : Bitmap) : List PlannedAction :=
  let pw := pixelWidth r (bmpWidth bmp)
  let ph := pixelHeight r (bmpHeight bmp)
  let groups := groupByColor q r pw ph (visiblePixels bmp)
  (sortedColors groups).flatMap (fun c => colorActions r (lookupGroup groups c) c)

/-- Lab conversions performed during one whole pixel-style planning pass:
`find_closest_color` is called once per visible pixel (auto_draw.py line
2131) and each call converts the query color and every palette entry
(`fccLabCalls`); there is no memoisation anywhere in the source. -/
def planLabCalls (palette : List Color) (bmp : Bitmap) : List Color :=
  (visiblePixels bmp).flatMap (fun p => fccLabCalls palette (rgbOf p.2))

/-- Full palette scans performed during one whole pixel-style planning
pass: one per visible pixel (for a non-empty palette). -/
def planPaletteScans (palette : List Color) (bmp : Bitmap) : ℕ :=
  ((visiblePixels bmp).map (fun _ => fccPaletteScans palette)).sum

/-! ## Outline-style tracing and drawing -/

/-- An integer pixel coordinate (x, y) of the outline scan. -/
abbrev IPoint := ℤ × ℤ

/-- An outline-mode bitmap: rows of RGB pixels
(`self.processed_image.getpixel((x, y))`). -/
abbrev OutlineBitmap := List (List Color)

/-- The dark-pixel scan (auto_draw.py lines 2243-2249): row-major, keep
`(x, y)` when `sum(pixel) < 450`. -/
def darkPixels (bmp : OutlineBitmap) : List IPoint :=
  bmp.enum.flatMap (fun yrow =>
    yrow.2.enum.filterMap (fun xp =>
      if xp.2.1 + xp.2.2.1 + xp.2.2.2 < 450 then
        some ((xp.1 : ℤ), (yrow.1 : ℤ))
      else none))

/-- The fixed 8-neighbor scan order (auto_draw.py line 2277). -/
def directions : List (ℤ × ℤ) :=
  [(-1, -1), (-1, 0), (-1, 1), (0, -1), (0, 1), (1, -1), (1, 0), (1, 1)]

/-- One neighbor search of the tracing loop (auto_draw.py lines 2291-2298):
the first direction whose neighbor is an unvisited outline pixel. -/
def findNext (outline visited : List IPoint) (current : IPoint) :
    Option IPoint :=
  directions.findSome? (fun d =>
    let n := (current.1 + d.1, current.2 + d.2)
    if n ∈ outline ∧ n ∉ visited then some n else none)

/-- The `while True`-style extension loop of one segment (auto_draw.py
lines 2289-2301), with fuel; returns the extension (excluding the seed) and
the updated visited set. -/
def extendSegment : ℕ → List IPoint → List IPoint → IPoint →
    List IPoint × List IPoint
  | 0, _, visited, _ => ([], visited)
  | f + 1, outline, visited, current =>
      match findNext outline visited current with
      | none => ([], visited)
      | some n =>
          let r := extendSegment f outline (visited ++ [n]) n
          (n :: r.1, r.2)

/-- The segment-grouping pass (auto_draw.py lines 2272-2306): visit the
dark pixels in scan order, trace a greedy segment from each unvisited one,
and keep segments of length at least 2 (`if len(segment) > 1`). -/
def traceSegments (outline : List IPoint) : List (List IPoint) :=
  (outline.foldl (fun (acc : List (List IPoint) × List IPoint) point =>
      if point ∈ acc.2 then acc
      else
        let e := extendSegment outline.length outline (acc.2 ++ [point]) point
        if (point :: e.1).length > 1 then (acc.1 ++ [point :: e.1], e.2)
        else (acc.1, e.2))
    ([], [])).1

/-- The actions drawn for one segment (auto_draw.py lines 2310-2341):
move to the first point, press down, drag to each subsequent point, and
release; screen positions are `(x1 + x, y1 + y)`. -/
def segmentActions (r : Region) (seg : List IPoint) : List PlannedAction :=
  match seg with
  | [] => []
  | first :: rest =>
      PlannedAction.MoveTo (((r.x1 + first.1 : ℤ) : ℚ), ((r.y1 + first.2 : ℤ) : ℚ)) ::
      PlannedAction.PressDown ::
      (rest.map (fun pt =>
        PlannedAction.DragTo (((r.x1 + pt.1 : ℤ) : ℚ), ((r.y1 + pt.2 : ℤ) : ℚ))) ++
      [PlannedAction.Release])

/-- The outline branch of `AutoDraw.draw_image` (auto_draw.py lines
2239-2348) reduced to its observable outcome with the stop flag clear: the
boolean value `draw_image` returns, and the emitted actions.  With zero
dark pixels the source shows a notice dialog and returns `False` (line
2253) before selecting a color or drawing anything; with no known screen
position for the palette black it also returns `False` (line 2268). -/
def draw_image_outline (r : Region) (bmp : OutlineBitmap) (black : Color)
    (blackPosKnown : Bool) : Bool × List PlannedAction :=
  let outline := darkPixels bmp
  if outline.length = 0 then (false, [])
  else if !blackPosKnown then (false, [])
  else
    (true, PlannedAction.SelectColor black ::
      (traceSegments outline).flatMap (segmentActions r))

/-! ## Executor models with cancellation

The stop flag is modelled by the threshold `cancelAt`: it reads as set
exactly once at least `cancelAt` actuator calls have completed, which is
the "flag set after K of N actions" scenario of the spec. -/

/-- The per-point drawing loop of the pixel style (auto_draw.py lines
2208-2215): before each point the flag is checked
(`if self.stop_drawing: return`), then `moveTo` and `click` run (2 calls).
Returns the completed-call count and whether the executor halted early. -/
def execPoints (cancelAt : ℕ) : ℕ → List Point → ℕ × Bool
  | count, [] => (count, false)
  | count, _ :: rest =>
      if cancelAt ≤ count then (count, true)
      else execPoints cancelAt (count + 2) rest

/-- The per-cell loop (auto_draw.py lines 2183-2215): cells run in order;
a halt inside one cell stops everything after it. -/
def execCells (cancelAt : ℕ) : ℕ → List (List Point) → ℕ × Bool
  | count, [] => (count, false)
  | count, cell :: rest =>
      let r := execPoints cancelAt count cell
      if r.2 then r else execCells cancelAt r.1 rest

/-- The per-color loop (auto_draw.py lines 2152-2215): before each color
the flag is checked (line 2153); selecting the color is one actuator call
(the click in `set_target_color`), then the cells run. -/
def execColors (cancelAt : ℕ) : ℕ → List (List (List Point)) → ℕ × Bool
  | count, [] => (count, false)
  | count, cells :: rest =>
      if cancelAt ≤ count then (count, true)
      else
        let r := execCells cancelAt (count + 1) cells
        if r.2 then r else execColors cancelAt r.1 rest

/-- Completed actuator calls of a pixel-style execution that is cancelled
once `cancelAt` calls have completed. -/
def draw_image_pixel_exec (cancelAt : ℕ)
    (groups : List (List (List Point))) : ℕ :=
  (execColors cancelAt 0 groups).1

/-- Actuator calls of drawing one whole outline segment (auto_draw.py lines
2310-2341): `moveTo`, `mouseDown`, one `moveTo` per remaining point, and
`mouseUp` — with no flag check anywhere inside. -/
def execSegment (count : ℕ) : List IPoint → ℕ
  | [] => count
  | _ :: rest => count + 2 + rest.length + 1

/-- The outline drawing loop (auto_draw.py lines 2310-2345): the flag is
checked only before each segment (line 2311); once a segment has begun it
is drawn to completion. -/
def execSegments (cancelAt : ℕ) : ℕ → List (List IPoint) → ℕ
  | count, [] => count
  | count, seg :: rest =>
      if cancelAt ≤ count then count
      else execSegments cancelAt (execSegment count seg) rest

/-- Completed actuator calls of an outline-style execution that is
cancelled once `cancelAt` calls have completed. -/
def draw_image_outline_exec (cancelAt : ℕ)
    (segments : List (List IPoint)) : ℕ :=
  execSegments cancelAt 0 segments

/-- Classifier for `SelectColor` actions, used for counting. -/
def isSelectAction : PlannedAction → Bool
  | .SelectColor _ => true
  | _ => false

/-- Classifier for `MoveTo` actions, used for counting. -/
def isMoveAction : PlannedAction → Bool
  | .MoveTo _ => true
  | _ => false

/-- Classifier for `Click` actions, used for counting. -/
def isClickAction : PlannedAction → Bool
  | .Click => true
  | _ => false

/-- Total number of stored values of an insertion-ordered dictionary. -/
def vcount {κ α : Type} (g : List (κ × List α)) : ℕ :=
  (g.map (fun kv => kv.2.length)).sum

/-- A 1-row, 10-column all-black outline bitmap: its dark pixels form one
straight horizontal line of 10 colinear points. -/
def lineBitmap : OutlineBitmap := [List.replicate 10 (0, 0, 0)]

/-- The single traced segment of `lineBitmap`. -/
def lineSeg : List IPoint :=
  [(0, 0), (1, 0), (2, 0), (3, 0), (4, 0), (5, 0), (6, 0), (7, 0), (8, 0), (9, 0)]

/-- Invariant of the `find_closest_color` loop, started from an accumulator
that already holds a candidate `b` at its true distance `m`: the final
accumulator holds a candidate at its true distance, no worse than `m` and
than every scanned entry, and it either still is the initial candidate or
is a scanned entry that strictly improved on everything before it. -/
lemma fccFold_from (lab1 : Lab) :
    ∀ (l : List Color) (m : ℝ) (b : Color), m = colorDist lab1 b →
    ∃ m' b', l.foldl (fccStep lab1) (some (m, b)) = some (m', b') ∧
      m' = colorDist lab1 b' ∧ m' ≤ m ∧ (∀ q ∈ l, m' ≤ colorDist lab1 q) ∧
      ((b' = b ∧ m' = m) ∨
        ∃ l1 l2, l = l1 ++ b' :: l2 ∧ m' < m ∧ ∀ q ∈ l1, m' < colorDist lab1 q) := by
  intro l
  induction l with
  | nil =>
      intro m b hm
      exact ⟨m, b, rfl, hm, le_refl m, by simp, Or.inl ⟨rfl, rfl⟩⟩
  | cons x xs ih =>
      intro m b hm
      by_cases hx : colorDist lab1 x < m
      · have hstep : fccStep lab1 (some (m, b)) x = some (colorDist lab1 x, x) := by
          simp [fccStep, hx]
        obtain ⟨m', b', heq, hmb', hle, hall, hcase⟩ := ih (colorDist lab1 x) x rfl
        refine ⟨m', b', ?_, hmb', le_trans hle hx.le, ?_, ?_⟩
        · simpa [hstep] using heq
        · intro q hq
          rcases List.mem_cons.mp hq with hq | hq
          · exact hq ▸ hle
          · exact hall q hq
        · rcases hcase with ⟨hb, hm'⟩ | ⟨l1, l2, hdec, hlt, hfirst⟩
          · refine Or.inr ⟨[], xs, ?_, ?_, by simp⟩
            · simp [hb]
            · exact hm' ▸ hx
          · refine Or.inr ⟨x :: l1, l2, by rw [hdec]; rfl, lt_trans hlt hx, ?_⟩
            intro q hq
            rcases List.mem_cons.mp hq with hq | hq
            · exact hq ▸ hlt
            · exact hfirst q hq
      · have hstep : fccStep lab1 (some (m, b)) x = some (m, b) := by
          simp [fccStep, hx]
        obtain ⟨m', b', heq, hmb', hle, hall, hcase⟩ := ih m b hm
        refine ⟨m', b', ?_, hmb', hle, ?_, ?_⟩
        · simpa [hstep] using heq
        · intro q hq
          rcases List.mem_cons.mp hq with hq | hq
          · exact hq ▸ le_trans hle (not_lt.mp hx)
          · exact hall q hq
        · rcases hcase with ⟨hb, hm'⟩ | ⟨l1, l2, hdec, hlt, hfirst⟩
          · exact Or.inl ⟨hb, hm'⟩
          · refine Or.inr ⟨x :: l1, l2, by rw [hdec]; rfl, hlt, ?_⟩
            intro q hq
            rcases List.mem_cons.mp hq with hq | hq
            · exact hq ▸ lt_of_lt_of_le hlt (not_lt.mp hx)
            · exact hfirst q hq

/-- The `find_closest_color` loop over a non-empty palette returns the first
entry attaining the minimum distance: the palette splits as
`l1 ++ result :: l2` with the result at its true minimal distance and every
entry of `l1` strictly farther. -/
lemma fccFold_spec (lab1 : Lab) (p : Color) (ps : List Color) :
    ∃ m' b', (p :: ps).foldl (fccStep lab1) none = some (m', b') ∧
      m' = colorDist lab1 b' ∧ (∀ q ∈ p :: ps, m' ≤ colorDist lab1 q) ∧
      ∃ l1 l2, p :: ps = l1 ++ b' :: l2 ∧ ∀ q ∈ l1, m' < colorDist lab1 q := by
  have hstep0 : fccStep lab1 none p = some (colorDist lab1 p, p) := rfl
  obtain ⟨m', b', heq, hmb', hle, hall, hcase⟩ :=
    fccFold_from lab1 ps (colorDist lab1 p) p rfl
  refine ⟨m', b', by simpa [hstep0] using heq, hmb', ?_, ?_⟩
  · intro q hq
    rcases List.mem_cons.mp hq with hq | hq
    · exact hq ▸ hle
    · exact hall q hq
  · rcases hcase with ⟨hb, hm'⟩ | ⟨l1, l2, hdec, hlt, hfirst⟩
    · exact ⟨[], ps, by simp [hb], by simp⟩
    · refine ⟨p :: l1, l2, by rw [hdec]; rfl, ?_⟩
      intro q hq
      rcases List.mem_cons.mp hq with hq | hq
      · exact hq ▸ hlt
      · exact hfirst q hq

/-- Comparison with a real `2.4`-power, reduced to integer powers via
`2.4 = 12/5`. -/
lemma lt_rpow_twelve_fifths {c d : ℝ} (hd : 0 ≤ d)
    (h : c ^ (5 : ℕ) < d ^ (12 : ℕ)) : c < d ^ (2.4 : ℝ) := by
  by_contra hcon
  push_neg at hcon
  have hrnn : 0 ≤ d ^ (2.4 : ℝ) := Real.rpow_nonneg hd _
  have h1 : (d ^ (2.4 : ℝ)) ^ (5 : ℕ) ≤ c ^ (5 : ℕ) :=
    pow_le_pow_left₀ hrnn hcon 5
  have h2 : (d ^ (2.4 : ℝ)) ^ (5 : ℕ) = d ^ (12 : ℕ) := by
    rw [← Real.rpow_natCast (d ^ (2.4 : ℝ)) 5, ← Real.rpow_mul hd,
      ← Real.rpow_natCast d 12]
    norm_num
  rw [h2] at h1
  exact absurd h (not_lt.mpr h1)

/-- Comparison with a real cube root, reduced to an integer cube. -/
lemma le_rpow_one_third {x δ : ℝ} (_hx : 0 ≤ x) (hδ : 0 ≤ δ)
    (h : x ^ (3 : ℕ) ≤ δ) : x ≤ δ ^ ((1 : ℝ) / 3) := by
  by_contra hcon
  push_neg at hcon
  have hrnn : 0 ≤ δ ^ ((1 : ℝ) / 3) := Real.rpow_nonneg hδ _
  have h1 : (δ ^ ((1 : ℝ) / 3)) ^ (3 : ℕ) < x ^ (3 : ℕ) :=
    pow_lt_pow_left₀ hcon hrnn (by norm_num)
  have h2 : (δ ^ ((1 : ℝ) / 3)) ^ (3 : ℕ) = δ := by
    rw [← Real.rpow_natCast (δ ^ ((1 : ℝ) / 3)) 3, ← Real.rpow_mul hδ]
    norm_num
  rw [h2] at h1
  linarith

/-- `gammaExpand` is strictly increasing on the normalised 8-bit channel
values `k / 255`.  The two branches are separately monotone; across the
branch boundary (`k ≤ 10` versus `11 ≤ k`) the exact rational estimate
`50/16473 < (1001/10761) ^ 2.4` separates them. -/
lemma gammaNat_lt {k1 k2 : ℕ} (h : k1 < k2) :
    gammaExpand ((k1 : ℝ) / 255) < gammaExpand ((k2 : ℝ) / 255) := by
  have hc : (k1 : ℝ) < (k2 : ℝ) := by exact_mod_cast h
  unfold gammaExpand
  by_cases h1 : (10 : ℕ) < k1
  · -- both in the power branch
    have h2 : (10 : ℕ) < k2 := lt_trans h1 h
    have hr1 : ((k1 : ℝ) / 255 > 0.04045) := by
      have : (11 : ℝ) ≤ (k1 : ℝ) := by exact_mod_cast h1
      norm_num
      linarith
    have hr2 : ((k2 : ℝ) / 255 > 0.04045) := by
      have : (11 : ℝ) ≤ (k2 : ℝ) := by exact_mod_cast h2
      norm_num
      linarith
    rw [if_pos hr1, if_pos hr2]
    have hbase : ((k1 : ℝ) / 255 + 0.055) / 1.055 <
        ((k2 : ℝ) / 255 + 0.055) / 1.055 := by gcongr
    exact Real.rpow_lt_rpow (by positivity) hbase (by norm_num)
  · have hk1 : (k1 : ℝ) ≤ 10 := by
      have : k1 ≤ 10 := not_lt.mp h1
      exact_mod_cast this
    have hr1 : ¬ ((k1 : ℝ) / 255 > 0.04045) := by
      norm_num
      linarith
    rw [if_neg hr1]
    by_cases h2 : (10 : ℕ) < k2
    · -- cross-branch case
      have hk2 : (11 : ℝ) ≤ (k2 : ℝ) := by exact_mod_cast h2
      have hr2 : ((k2 : ℝ) / 255 > 0.04045) := by
        norm_num
        linarith
      rw [if_pos hr2]
      have e1 : (k1 : ℝ) / 255 / 12.92 ≤ 50 / 16473 :=
        calc (k1 : ℝ) / 255 / 12.92 ≤ (10 : ℝ) / 255 / 12.92 := by gcongr
          _ ≤ 50 / 16473 := by norm_num
      have e2 : (50 / 16473 : ℝ) < ((1001 : ℝ) / 10761) ^ (2.4 : ℝ) := by
        apply lt_rpow_twelve_fifths (by norm_num)
        norm_num
      have e3 : ((1001 : ℝ) / 10761) ^ (2.4 : ℝ) ≤
          (((k2 : ℝ) / 255 + 0.055) / 1.055) ^ (2.4 : ℝ) := by
        apply Real.rpow_le_rpow (by norm_num) _ (by norm_num)
        have hb : ((11 : ℝ) / 255 + 0.055) / 1.055 ≤
            ((k2 : ℝ) / 255 + 0.055) / 1.055 := by gcongr
        have hb0 : ((1001 : ℝ) / 10761) = ((11 : ℝ) / 255 + 0.055) / 1.055 := by
          norm_num
        rw [hb0]
        exact hb
      linarith
    · -- both in the linear branch
      have hk2 : (k2 : ℝ) ≤ 10 := by
        have : k2 ≤ 10 := not_lt.mp h2
        exact_mod_cast this
      have hr2 : ¬ ((k2 : ℝ) / 255 > 0.04045) := by
        norm_num
        linarith
      rw [if_neg hr2]
      gcongr

/-- The channel map `k ↦ gammaExpand (k / 255)` is injective. -/
lemma gammaNat_injective : Function.Injective
    (fun k : ℕ => gammaExpand ((k : ℝ) / 255)) :=
  (strictMono_nat_of_lt_succ (fun n => gammaNat_lt (Nat.lt_succ_self n))).injective

/-- `labF` is strictly increasing: both branches are monotone, and across
the branch boundary the exact rational estimate
`7.787 * 0.008856 + 16/116 ≤ 0.008856 ^ (1/3)` separates them. -/
lemma labF_strictMono : StrictMono labF := by
  intro t1 t2 h
  unfold labF
  by_cases h1 : t1 > 0.008856 <;> by_cases h2 : t2 > 0.008856
  · rw [if_pos h1, if_pos h2]
    exact Real.rpow_lt_rpow (le_of_lt (lt_trans (by norm_num) h1)) h (by norm_num)
  · linarith
  · rw [if_neg h1, if_pos h2]
    have ht1 : t1 ≤ 0.008856 := not_lt.mp h1
    have e1 : 7.787 * t1 + 16 / 116 ≤ (749986061 / 3625000000 : ℝ) := by linarith
    have e2 : (749986061 / 3625000000 : ℝ) ≤ (0.008856 : ℝ) ^ ((1 : ℝ) / 3) := by
      apply le_rpow_one_third (by norm_num) (by norm_num)
      norm_num
    have e3 : (0.008856 : ℝ) ^ ((1 : ℝ) / 3) < t2 ^ ((1 : ℝ) / 3) :=
      Real.rpow_lt_rpow (by norm_num) h2 (by norm_num)
    linarith
  · rw [if_neg h1, if_neg h2]
    linarith

/-- The Lab assembly stage is injective: the three output components
determine the three `labF` values, `labF` is strictly monotone, and the
divisions by the reference white are invertible. -/
lemma labStage_injective : Function.Injective labStage := by
  rintro ⟨x1, y1, z1⟩ ⟨x2, y2, z2⟩ h
  simp only [labStage, Prod.mk.injEq] at h
  obtain ⟨hL, ha, hb⟩ := h
  have hfy : labF (y1 / 100.0) = labF (y2 / 100.0) := by linarith
  have hfx : labF (x1 / 95.047) = labF (x2 / 95.047) := by linarith
  have hfz : labF (z1 / 108.883) = labF (z2 / 108.883) := by linarith
  have hy := labF_strictMono.injective hfy
  have hx := labF_strictMono.injective hfx
  have hz := labF_strictMono.injective hfz
  have hx' : x1 = x2 := by linear_combination (95.047 : ℝ) * hx
  have hy' : y1 = y2 := by linear_combination (100.0 : ℝ) * hy
  have hz' : z1 = z2 := by linear_combination (108.883 : ℝ) * hz
  rw [hx', hy', hz']

/-- The XYZ matrix stage is injective; the explicit cofactor combinations
of the three linear equations recover each input coordinate (the matrix
determinant, scaled by 10^4 per entry, is 207117843360 ≠ 0). -/
lemma xyzStage_injective : Function.Injective xyzStage := by
  rintro ⟨r1, g1, b1⟩ ⟨r2, g2, b2⟩ h
  simp only [xyzStage, Prod.mk.injEq] at h
  obtain ⟨h1, h2, h3⟩ := h
  have hr : r1 = r2 := by
    linear_combination (6711913600 / 207117843360 : ℝ) * h1 -
      (3183832000 / 207117843360 : ℝ) * h2 -
      (1032748800 / 207117843360 : ℝ) * h3
  have hg : g1 = g2 := by
    linear_combination (-(2006828400 / 207117843360) : ℝ) * h1 +
      (3885025500 / 207117843360 : ℝ) * h2 +
      (85990200 / 207117843360 : ℝ) * h3
  have hb : b1 = b2 := by
    linear_combination (115385600 / 207117843360 : ℝ) * h1 -
      (422564000 / 207117843360 : ℝ) * h2 +
      (2189227200 / 207117843360 : ℝ) * h3
  rw [hr, hg, hb]

/-- The gamma stage is injective on whole-number channels. -/
lemma linChannels_injective : Function.Injective linChannels := by
  rintro ⟨r1, g1, b1⟩ ⟨r2, g2, b2⟩ h
  simp only [linChannels, Prod.mk.injEq] at h
  obtain ⟨hr, hg, hb⟩ := h
  rw [gammaNat_injective hr, gammaNat_injective hg, gammaNat_injective hb]

/-- `rgb2lab` is injective: all three stages are. -/
lemma rgb2lab_injective : Function.Injective rgb2lab := by
  intro c1 c2 h
  exact linChannels_injective (xyzStage_injective (labStage_injective h))

/-- C9: `delta_e_cie94` clamps the hue-difference term to zero whenever the
value under its square root would be negative — equivalently, the term it
uses is the square root of `max (dhSquared lab1 lab2) 0` — and consequently
the function always returns a non-negative (finite, total) real and never
propagates a domain error. -/
theorem delta_e_cie94_clamps_and_nonneg (lab1 lab2 : Lab) :
    hueDiff lab1 lab2 = Real.sqrt (max (dhSquared lab1 lab2) 0) ∧
    0 ≤ delta_e_cie94 lab1 lab2 := by
  refine ⟨?_, Real.sqrt_nonneg _⟩
  unfold hueDiff
  rcases lt_or_le (dhSquared lab1 lab2) 0 with h | h
  · rw [if_pos h, max_eq_right h.le, Real.sqrt_zero]
  · rw [if_neg (not_lt.mpr h), max_eq_left h]

/-- The CIE94 distance from a Lab color to itself is zero. -/
lemma delta_e_cie94_self (l : Lab) : delta_e_cie94 l l = 0 := by
  unfold delta_e_cie94 hueDiff dhSquared
  simp [sub_self]

/-- A zero CIE94 distance forces the two Lab colors to be equal: every
squared summand must vanish, the weights `sc`, `sh` are at least 1, and the
clamped hue term recovers `da = db = 0`. -/
lemma delta_e_cie94_eq_zero {l1 l2 : Lab} (h : delta_e_cie94 l1 l2 = 0) :
    l1 = l2 := by
  obtain ⟨L1, a1, b1⟩ := l1
  obtain ⟨L2, a2, b2⟩ := l2
  have hc1 : 0 ≤ chroma (L1, a1, b1) := Real.sqrt_nonneg _
  have h' : Real.sqrt (((L1 - L2) / (1 * 1)) ^ 2 +
      ((chroma (L1, a1, b1) - chroma (L2, a2, b2)) /
        (1 + 0.045 * chroma (L1, a1, b1))) ^ 2 +
      (hueDiff (L1, a1, b1) (L2, a2, b2) /
        (1 + 0.015 * chroma (L1, a1, b1))) ^ 2) = 0 := h
  have hT := Real.sqrt_eq_zero'.mp h'
  have e1 := sq_nonneg ((L1 - L2) / (1 * 1))
  have e2 := sq_nonneg ((chroma (L1, a1, b1) - chroma (L2, a2, b2)) /
      (1 + 0.045 * chroma (L1, a1, b1)))
  have e3 := sq_nonneg (hueDiff (L1, a1, b1) (L2, a2, b2) /
      (1 + 0.015 * chroma (L1, a1, b1)))
  have hsq1 : ((L1 - L2) / (1 * 1)) ^ 2 = 0 := le_antisymm (by linarith) e1
  have hsq2 : ((chroma (L1, a1, b1) - chroma (L2, a2, b2)) /
      (1 + 0.045 * chroma (L1, a1, b1))) ^ 2 = 0 := le_antisymm (by linarith) e2
  have hsq3 : (hueDiff (L1, a1, b1) (L2, a2, b2) /
      (1 + 0.015 * chroma (L1, a1, b1))) ^ 2 = 0 := le_antisymm (by linarith) e3
  have h1 := (pow_eq_zero_iff two_ne_zero).mp hsq1
  have h2 := (pow_eq_zero_iff two_ne_zero).mp hsq2
  have h3 := (pow_eq_zero_iff two_ne_zero).mp hsq3
  have hLeq : L1 = L2 := by linear_combination ((1 : ℝ) * 1) * h1
  have hdC0 : chroma (L1, a1, b1) - chroma (L2, a2, b2) = 0 := by
    rcases div_eq_zero_iff.mp h2 with hz | hz
    · exact hz
    · exact absurd hz (by positivity)
  have hdH0 : hueDiff (L1, a1, b1) (L2, a2, b2) = 0 := by
    rcases div_eq_zero_iff.mp h3 with hz | hz
    · exact hz
    · exact absurd hz (by positivity)
  have hdh : dhSquared (L1, a1, b1) (L2, a2, b2) =
      (a1 - a2) ^ 2 + (b1 - b2) ^ 2 -
      (chroma (L1, a1, b1) - chroma (L2, a2, b2)) ^ 2 := rfl
  unfold hueDiff at hdH0
  by_cases hcase : dhSquared (L1, a1, b1) (L2, a2, b2) < 0
  · exfalso
    rw [hdh, hdC0] at hcase
    nlinarith [sq_nonneg (a1 - a2), sq_nonneg (b1 - b2)]
  · rw [if_neg hcase] at hdH0
    have hle := Real.sqrt_eq_zero'.mp hdH0
    rw [hdh, hdC0] at hle
    have hsa : (a1 - a2) ^ 2 = 0 :=
      le_antisymm (by nlinarith [sq_nonneg (b1 - b2)]) (sq_nonneg _)
    have hsb : (b1 - b2) ^ 2 = 0 :=
      le_antisymm (by nlinarith [sq_nonneg (a1 - a2)]) (sq_nonneg _)
    have haeq : a1 = a2 := sub_eq_zero.mp ((pow_eq_zero_iff two_ne_zero).mp hsa)
    have hbeq : b1 = b2 := sub_eq_zero.mp ((pow_eq_zero_iff two_ne_zero).mp hsb)
    rw [hLeq, haeq, hbeq]

/-- `colorDist` facts: non-negativity, reflexive zero, and definiteness on
colors (via injectivity of `rgb2lab`). -/
lemma colorDist_nonneg (lab1 : Lab) (q : Color) : 0 ≤ colorDist lab1 q :=
  Real.sqrt_nonneg _

lemma colorDist_self (c : Color) : colorDist (rgb2lab c) c = 0 :=
  delta_e_cie94_self (rgb2lab c)

lemma colorDist_eq_zero {c q : Color} (h : colorDist (rgb2lab c) q = 0) :
    q = c :=
  (rgb2lab_injective (delta_e_cie94_eq_zero h)).symm

/-- C6: for every non-empty palette `P` and query color `c`,
`find_closest_color` returns a palette entry attaining the minimum
`delta_e_cie94` distance to the query, with ties broken by first occurrence
in palette order (the palette splits around the result, and every entry
strictly before it is strictly farther); in particular, whenever the query
itself occurs in the palette, the result is the query. -/
theorem find_closest_color_min_tiebreak_exact (P : List Color) (c : Color)
    (hP : P ≠ []) :
    (∃ l1 l2, P = l1 ++ find_closest_color P c :: l2 ∧
      (∀ q ∈ P, colorDist (rgb2lab c) (find_closest_color P c) ≤
        colorDist (rgb2lab c) q) ∧
      (∀ q ∈ l1, colorDist (rgb2lab c) (find_closest_color P c) <
        colorDist (rgb2lab c) q)) ∧
    (c ∈ P → find_closest_color P c = c) := by
  obtain ⟨p, ps, rfl⟩ := List.exists_cons_of_ne_nil hP
  obtain ⟨m', b', heq, hmb', hmin, l1, l2, hdec, hfirst⟩ :=
    fccFold_spec (rgb2lab c) p ps
  have hres : find_closest_color (p :: ps) c = b' := by
    unfold find_closest_color
    rw [if_neg (List.cons_ne_nil p ps), heq]
  rw [hres]
  constructor
  · exact ⟨l1, l2, hdec, fun q hq => hmb' ▸ hmin q hq,
      fun q hq => hmb' ▸ hfirst q hq⟩
  · intro hc
    have h1 : m' ≤ colorDist (rgb2lab c) c := hmin c hc
    rw [colorDist_self] at h1
    have h2 : 0 ≤ m' := hmb' ▸ colorDist_nonneg (rgb2lab c) b'
    have h3 : colorDist (rgb2lab c) b' = 0 := by
      rw [← hmb']
      linarith
    exact colorDist_eq_zero h3

/-- Witness for the C6 theorem at palette `[(0,0,0)]`, query `(0,0,0)`:
both hypotheses (non-empty palette, query in palette) hold by computation
and the exact-match conclusion is produced by the theorem. -/
theorem find_closest_color_min_tiebreak_exact_witness :
    (([((0 : ℕ), (0 : ℕ), (0 : ℕ))] : List Color) ≠ []) ∧
    (((0 : ℕ), (0 : ℕ), (0 : ℕ)) ∈ ([((0 : ℕ), (0 : ℕ), (0 : ℕ))] : List Color)) ∧
    find_closest_color [((0 : ℕ), (0 : ℕ), (0 : ℕ))] ((0 : ℕ), (0 : ℕ), (0 : ℕ)) =
      ((0 : ℕ), (0 : ℕ), (0 : ℕ)) :=
  ⟨by decide, by decide,
    (find_closest_color_min_tiebreak_exact _ _ (by decide)).2 (by decide)⟩

/-- C7: matching any color against an empty palette is the identity, and
the call performs no Lab conversion and no palette scan (the early return
precedes both). -/
theorem find_closest_color_empty_identity (c : Color) :
    find_closest_color [] c = c ∧ fccLabCalls [] c = [] ∧
    fccPaletteScans [] = 0 := by
  refine ⟨?_, rfl, rfl⟩
  unfold find_closest_color
  simp

/-- C5 counterexample: the GUI implementation marks (245,245,245) as
background although none of its channels strictly exceeds 245 (the source
tests `>=`, not `>`), and at (240,240,240) the CLI implementation
(hardcoded threshold 240) marks while the GUI implementation (hardcoded
threshold 245) does not — the two near-duplicate implementations disagree. -/
theorem background_marking_counterexample :
    markBackgroundGUI (245, 245, 245, 255) = (245, 245, 245, 0) ∧
    isBackgroundSpec (245, 245, 245, 255) = false ∧
    markBackgroundCLI (240, 240, 240, 255) = (240, 240, 240, 0) ∧
    markBackgroundGUI (240, 240, 240, 255) = (240, 240, 240, 255) := by decide

/-- C5 amended: background marking is non-strict and the thresholds differ —
the GUI marks exactly when all three channels are ≥ 245 and the CLI exactly
when all are ≥ 240 — and a bitmap all of whose pixels pass the ≥ 245 white
test still yields an empty pixel-style action stream. -/
theorem background_marking_amended (q : Color → Color) (r : Region)
    (bmp : Bitmap) (h : ∀ row ∈ bmp, ∀ p ∈ row, isWhitePixel p = true) :
    (∀ p : RGBA, isBackgroundGUI p = true ↔
      (245 ≤ p.1 ∧ 245 ≤ p.2.1 ∧ 245 ≤ p.2.2.1)) ∧
    (∀ p : RGBA, isBackgroundCLI p = true ↔
      (240 ≤ p.1 ∧ 240 ≤ p.2.1 ∧ 240 ≤ p.2.2.1)) ∧
    draw_image_pixel_plan q r bmp = [] := by
  refine ⟨?_, ?_, ?_⟩
  · intro p
    simp [isBackgroundGUI, Bool.and_eq_true, decide_eq_true_iff, and_assoc]
  · intro p
    simp [isBackgroundCLI, Bool.and_eq_true, decide_eq_true_iff, and_assoc]
  · have hv : visiblePixels bmp = [] := by
      unfold visiblePixels
      rw [List.flatMap_eq_nil_iff]
      intro yrow hy
      rw [List.filterMap_eq_nil_iff]
      intro xp hx
      have hrow : yrow.2 ∈ bmp := by
        have := List.mem_map_of_mem Prod.snd hy
        rwa [List.enum_map_snd] at this
      have hpix : xp.2 ∈ yrow.2 := by
        have := List.mem_map_of_mem Prod.snd hx
        rwa [List.enum_map_snd] at this
      simp [h yrow.2 hrow xp.2 hpix]
    unfold draw_image_pixel_plan
    rw [hv]
    simp [groupByColor, sortedColors]

/-- Witness for the C5 amended theorem at a concrete 1×1 bitmap whose only
pixel is (250,250,250,255). -/
theorem background_marking_amended_witness :
    (∀ row ∈ ([[((250 : ℕ), (250 : ℕ), (250 : ℕ), (255 : ℕ))]] : Bitmap),
      ∀ p ∈ row, isWhitePixel p = true) ∧
    draw_image_pixel_plan (fun c => c) ⟨0, 0, 100, 100⟩
      [[((250 : ℕ), (250 : ℕ), (250 : ℕ), (255 : ℕ))]] = [] :=
  ⟨by decide,
    (background_marking_amended (fun c => c) ⟨0, 0, 100, 100⟩ _ (by decide)).2.2⟩

/-- C4 counterexample: on a bitmap with no dark pixel the outline operation
does produce an empty plan, but `draw_image` returns False — the same
failure value as its error paths — contradicting "does not treat it as a
failure". -/
theorem outline_zero_dark_counterexample :
    darkPixels [[(255, 255, 255)]] = [] ∧
    draw_image_outline ⟨0, 0, 100, 100⟩ [[(255, 255, 255)]] (0, 0, 0) true =
      (false, []) := by decide

/-- C4 amended: with zero dark pixels the outline operation performs no
drawing actions and produces the empty plan, and it is reported (via a
notice dialog in the source), but the operation returns False — the
failure value — rather than success. -/
theorem outline_zero_dark_amended (r : Region) (bmp : OutlineBitmap)
    (black : Color) (bpk : Bool) (h : darkPixels bmp = []) :
    draw_image_outline r bmp black bpk = (false, []) := by
  unfold draw_image_outline
  rw [h]
  simp

/-- Witness for the C4 amended theorem at a concrete 1×1 light bitmap. -/
theorem outline_zero_dark_amended_witness :
    darkPixels [[(251, 252, 253)]] = [] ∧
    draw_image_outline ⟨5, 6, 105, 106⟩ [[(251, 252, 253)]] (1, 2, 3) false =
      (false, []) :=
  ⟨by decide, outline_zero_dark_amended ⟨5, 6, 105, 106⟩ _ _ _ (by decide)⟩

/-- C8: on a bitmap whose dark pixels form one straight line of 10 colinear
points, the greedy 8-neighbor tracing produces exactly one segment, of
length 10, and the emitted stream is the color selection followed by
MoveTo, PressDown, the nine DragTo moves in order, and a final Release —
so PressDown precedes every DragTo and Release terminates the segment. -/
theorem outline_line_single_segment :
    darkPixels lineBitmap = lineSeg ∧
    traceSegments (darkPixels lineBitmap) = [lineSeg] ∧
    lineSeg.length = 10 ∧
    draw_image_outline ⟨0, 0, 100, 100⟩ lineBitmap (0, 0, 0) true =
      (true, PlannedAction.SelectColor (0, 0, 0) ::
        PlannedAction.MoveTo (0, 0) :: PlannedAction.PressDown ::
        ([((1 : ℚ), (0 : ℚ)), (2, 0), (3, 0), (4, 0), (5, 0), (6, 0), (7, 0),
          (8, 0), (9, 0)].map PlannedAction.DragTo ++
         [PlannedAction.Release])) := by decide

/-- C2 counterexample: with palette [(0,0,0)] and a bitmap containing two
visible pixels of the same color (10,20,30), one planning pass converts
that color to Lab twice — once per pixel, not once per distinct color —
and performs two full palette scans, refuting the claimed at-most-one
bound. -/
theorem no_memoization_counterexample :
    (planLabCalls [(0, 0, 0)]
        [[(10, 20, 30, 255), (10, 20, 30, 255)]]).count
      ((10 : ℕ), (20 : ℕ), (30 : ℕ)) = 2 ∧
    ¬ ((planLabCalls [(0, 0, 0)]
        [[(10, 20, 30, 255), (10, 20, 30, 255)]]).count
      ((10 : ℕ), (20 : ℕ), (30 : ℕ)) ≤ 1) ∧
    planPaletteScans [(0, 0, 0)] [[(10, 20, 30, 255), (10, 20, 30, 255)]] = 2 := by
  decide

/-- Helper: the length of the conversion log of one planning pass. -/
lemma planLabCalls_length (palette : List Color) (h : palette ≠ []) :
    ∀ l : List ((ℕ × ℕ) × RGBA),
      (l.flatMap (fun p => fccLabCalls palette (rgbOf p.2))).length =
        l.length * (1 + palette.length)
  | [] => by simp
  | p :: rest => by
      have ih := planLabCalls_length palette h rest
      rw [List.flatMap_cons, List.length_append, ih, List.length_cons]
      unfold fccLabCalls
      rw [if_neg h, List.length_cons]
      ring

/-- Helper: the number of palette scans of one planning pass. -/
lemma planPaletteScans_eq (palette : List Color) (h : palette ≠ []) :
    ∀ l : List ((ℕ × ℕ) × RGBA),
      ((l.map (fun _ => fccPaletteScans palette)).sum) = l.length
  | [] => by simp
  | p :: rest => by
      have ih := planPaletteScans_eq palette h rest
      simp [fccPaletteScans, if_neg h, ih]
      omega

/-- C2 amended: the palette matcher is not memoized — within one planning
pass over a non-empty palette, `find_closest_color` runs once per visible
pixel, each run converting the query color and every palette entry to Lab
(so `1 + |palette|` conversions per visible pixel) and scanning the whole
palette once per visible pixel, regardless of how many pixels share a
color. -/
theorem lab_conversions_per_pixel (palette : List Color) (bmp : Bitmap)
    (h : palette ≠ []) :
    (planLabCalls palette bmp).length =
      (visiblePixels bmp).length * (1 + palette.length) ∧
    planPaletteScans palette bmp = (visiblePixels bmp).length := by
  constructor
  · exact planLabCalls_length palette h (visiblePixels bmp)
  · exact planPaletteScans_eq palette h (visiblePixels bmp)

/-- Witness for the C2 amended theorem at a concrete palette and bitmap. -/
theorem lab_conversions_per_pixel_witness :
    (([((0 : ℕ), (0 : ℕ), (0 : ℕ))] : List Color) ≠ []) ∧
    (planLabCalls [((0 : ℕ), (0 : ℕ), (0 : ℕ))] [[(10, 20, 30, 255)]]).length =
      (visiblePixels [[(10, 20, 30, 255)]]).length *
        (1 + ([((0 : ℕ), (0 : ℕ), (0 : ℕ))] : List Color).length) ∧
    planPaletteScans [((0 : ℕ), (0 : ℕ), (0 : ℕ))] [[(10, 20, 30, 255)]] =
      (visiblePixels [[(10, 20, 30, 255)]]).length :=
  ⟨by decide,
    (lab_conversions_per_pixel _ _ (by decide)).1,
    (lab_conversions_per_pixel _ _ (by decide)).2⟩

/-- C3 counterexample: in outline style with a single 10-point segment and
the flag set after K = 2 completed actuator calls (right after the MoveTo
and PressDown), the executor still drags through the whole segment: 12
calls complete, far more than K + 1 = 3, because the flag is only checked
between segments. -/
theorem outline_cancellation_counterexample :
    draw_image_outline_exec 2
      [[((0 : ℤ), (0 : ℤ)), (1, 0), (2, 0), (3, 0), (4, 0), (5, 0), (6, 0),
        (7, 0), (8, 0), (9, 0)]] = 12 ∧
    ¬ (draw_image_outline_exec 2
      [[((0 : ℤ), (0 : ℤ)), (1, 0), (2, 0), (3, 0), (4, 0), (5, 0), (6, 0),
        (7, 0), (8, 0), (9, 0)]] ≤ 2 + 1) := by decide

/-- Helper: the per-point pixel loop keeps the completed count at most
`cancelAt + 1`. -/
lemma execPoints_le (cancelAt : ℕ) :
    ∀ (pts : List Point) (count : ℕ), count ≤ cancelAt + 1 →
      (execPoints cancelAt count pts).1 ≤ cancelAt + 1
  | [], count, h => h
  | _ :: rest, count, h => by
      unfold execPoints
      by_cases hc : cancelAt ≤ count
      · simpa [hc] using h
      · have : count + 2 ≤ cancelAt + 1 := by omega
        simpa [hc] using execPoints_le cancelAt rest (count + 2) this

/-- Helper: the per-cell pixel loop keeps the completed count at most
`cancelAt + 1`. -/
lemma execCells_le (cancelAt : ℕ) :
    ∀ (cells : List (List Point)) (count : ℕ), count ≤ cancelAt + 1 →
      (execCells cancelAt count cells).1 ≤ cancelAt + 1
  | [], count, h => h
  | cell :: rest, count, h => by
      unfold execCells
      have h1 := execPoints_le cancelAt cell count h
      by_cases hh : (execPoints cancelAt count cell).2
      · simpa [hh] using h1
      · simpa [hh] using execCells_le cancelAt rest _ h1

/-- C3 amended: the pixel-style executor checks the flag before each color
selection and before each point pair; if the flag becomes set once
`cancelAt` calls have completed, at most one more point pair is performed
and the final completed count never exceeds `cancelAt + 1`, for every plan.
(The outline-style executor checks the flag only between segments and may
finish the entire current segment first, as the counterexample shows, so
the claim is restricted to pixel style.) -/
theorem pixel_cancellation_bound (cancelAt : ℕ)
    (groups : List (List (List Point))) :
    draw_image_pixel_exec cancelAt groups ≤ cancelAt + 1 := by
  unfold draw_image_pixel_exec
  suffices h : ∀ (gs : List (List (List Point))) (count : ℕ),
      count ≤ cancelAt + 1 → (execColors cancelAt count gs).1 ≤ cancelAt + 1 by
    exact h groups 0 (by omega)
  intro gs
  induction gs with
  | nil => intro count h; exact h
  | cons cells rest ih =>
      intro count h
      unfold execColors
      by_cases hc : cancelAt ≤ count
      · simpa [hc] using h
      · have h1 : count + 1 ≤ cancelAt + 1 := by omega
        have h2 := execCells_le cancelAt cells (count + 1) h1
        by_cases hh : (execCells cancelAt (count + 1) cells).2
        · simpa [hc, hh] using h2
        · simpa [hc, hh] using ih _ h2

/-- Selecting the element at index `i` and erasing it splits a list up to
permutation. -/
lemma getD_eraseIdx_perm {α : Type} (d : α) :
    ∀ (l : List α) (i : ℕ), i < l.length →
      List.Perm (l.getD i d :: l.eraseIdx i) l
  | [], i, h => absurd h (by simp)
  | x :: xs, 0, _ => by simp
  | x :: xs, i + 1, h => by
      have hi : i < xs.length := by simpa using h
      have ih := getD_eraseIdx_perm d xs i hi
      have hswap : List.Perm (xs.getD i d :: x :: xs.eraseIdx i)
          (x :: xs.getD i d :: xs.eraseIdx i) :=
        List.Perm.swap x (xs.getD i d) (xs.eraseIdx i)
      exact hswap.trans (ih.cons x)

/-- The argmin scan returns either its carried best index or the index of a
scanned element, hence always an index below `i + length`. -/
lemma nearestScan_fst_lt (last : Point) :
    ∀ (l : List Point) (i bi : ℕ) (bd : ℝ), bi < i →
      (nearestScan last l i (bi, bd)).1 < i + l.length
  | [], i, bi, bd, h => by simpa using h
  | p :: rest, i, bi, bd, h => by
      rw [nearestScan]
      by_cases hd : ptDist last p < bd
      · rw [if_pos hd]
        have := nearestScan_fst_lt last rest (i + 1) i (ptDist last p) (by omega)
        simpa [Nat.add_comm, Nat.add_assoc, Nat.add_left_comm] using this
      · rw [if_neg hd]
        have := nearestScan_fst_lt last rest (i + 1) bi bd (by omega)
        simpa [Nat.add_comm, Nat.add_assoc, Nat.add_left_comm] using this

/-- The chosen nearest index is always in range. -/
lemma nearestIdx_lt (last p : Point) (rest : List Point) :
    nearestIdx last (p :: rest) < (p :: rest).length := by
  have h := nearestScan_fst_lt last rest 1 0 (ptDist last p) (by omega)
  simpa [nearestIdx, Nat.add_comm] using h

/-- The nearest-neighbor loop with enough fuel permutes its input. -/
lemma nnLoop_perm :
    ∀ (fuel : ℕ) (last : Point) (remaining : List Point),
      remaining.length ≤ fuel → List.Perm (nnLoop fuel last remaining) remaining
  | fuel, _, [] => fun _ => by cases fuel <;> exact List.Perm.refl _
  | 0, _, p :: rest => fun h => by simp at h
  | fuel + 1, last, p :: rest => fun h => by
      have hidx := nearestIdx_lt last p rest
      have hlen : ((p :: rest).eraseIdx (nearestIdx last (p :: rest))).length ≤
          fuel := by
        rw [List.length_eraseIdx]
        simp only [hidx, if_pos]
        simp only [List.length_cons] at h ⊢
        omega
      have ih := nnLoop_perm fuel
        ((p :: rest).getD (nearestIdx last (p :: rest)) p)
        ((p :: rest).eraseIdx (nearestIdx last (p :: rest))) hlen
      have hsplit := getD_eraseIdx_perm p (p :: rest)
        (nearestIdx last (p :: rest)) hidx
      show List.Perm ((p :: rest).getD (nearestIdx last (p :: rest)) p ::
        nnLoop fuel ((p :: rest).getD (nearestIdx last (p :: rest)) p)
          ((p :: rest).eraseIdx (nearestIdx last (p :: rest)))) (p :: rest)
      exact (ih.cons _).trans hsplit

/-- The in-cell reorder is a permutation (helper shared by the pixel-plan
counting development). -/
lemma nnReorder_perm (cell : List Point) :
    List.Perm (sortPixelsNN cell) cell := by
  match cell with
  | [] => exact List.Perm.refl _
  | [p] => exact List.Perm.refl _
  | p :: q :: rest =>
      show List.Perm (p :: nnLoop (q :: rest).length p (q :: rest)) (p :: q :: rest)
      exact (nnLoop_perm (q :: rest).length p (q :: rest) (le_refl _)).cons p

/-- C10: the greedy nearest-neighbor reordering of a spatial cell returns a
permutation of the cell's original point list — no point is dropped and no
point is duplicated, so every planned point in the cell is clicked exactly
once. -/
theorem sortPixelsNN_perm (cell : List Point) :
    List.Perm (sortPixelsNN cell) cell :=
  nnReorder_perm cell

/-- Keys after an upsert: unchanged if the key is already present, appended
at the end otherwise. -/
lemma upsert_map_fst {κ α : Type} [DecidableEq κ] :
    ∀ (g : List (κ × List α)) (k : κ) (a : α),
      (upsert g k a).map Prod.fst =
        if k ∈ g.map Prod.fst then g.map Prod.fst else g.map Prod.fst ++ [k]
  | [], k, a => by simp [upsert]
  | (k', vs) :: rest, k, a => by
      simp only [upsert]
      by_cases hk : k' = k
      · subst hk
        simp
      · rw [if_neg hk]
        have ih := upsert_map_fst rest k a
        have hne : ¬ k = k' := fun he => hk he.symm
        simp only [List.map_cons, ih]
        by_cases hm : k ∈ rest.map Prod.fst
        · simp [hm, hne]
        · simp [hm, hne]

/-- Nodup keys are preserved by upsert. -/
lemma upsert_nodup {κ α : Type} [DecidableEq κ] (g : List (κ × List α))
    (k : κ) (a : α) (h : (g.map Prod.fst).Nodup) :
    ((upsert g k a).map Prod.fst).Nodup := by
  rw [upsert_map_fst]
  by_cases hm : k ∈ g.map Prod.fst
  · simpa [hm] using h
  · rw [if_neg hm]
    simp [List.nodup_append, h, hm]

/-- The stored-value count grows by exactly one per upsert. -/
lemma vcount_upsert {κ α : Type} [DecidableEq κ] :
    ∀ (g : List (κ × List α)) (k : κ) (a : α),
      vcount (upsert g k a) = vcount g + 1
  | [], k, a => by simp [upsert, vcount]
  | (k', vs) :: rest, k, a => by
      simp only [upsert]
      by_cases hk : k' = k
      · rw [if_pos hk]
        simp [vcount]
        omega
      · rw [if_neg hk]
        have ih := vcount_upsert rest k a
        simp only [vcount, List.map_cons, List.sum_cons] at ih ⊢
        omega

/-- Folding upserts over a list adds exactly its length to the stored-value
count. -/
lemma foldl_upsert_vcount {κ α β : Type} [DecidableEq κ]
    (key : β → κ) (val : β → α) :
    ∀ (l : List β) (g : List (κ × List α)),
      vcount (l.foldl (fun g p => upsert g (key p) (val p)) g) =
        vcount g + l.length
  | [], g => by simp
  | p :: rest, g => by
      rw [List.foldl_cons, foldl_upsert_vcount key val rest, vcount_upsert]
      simp only [List.length_cons]
      omega

/-- Folding upserts preserves nodup keys. -/
lemma foldl_upsert_nodup {κ α β : Type} [DecidableEq κ]
    (key : β → κ) (val : β → α) :
    ∀ (l : List β) (g : List (κ × List α)), (g.map Prod.fst).Nodup →
      (((l.foldl (fun g p => upsert g (key p) (val p)) g)).map Prod.fst).Nodup
  | [], _, h => h
  | p :: rest, g, h =>
      foldl_upsert_nodup key val rest _ (upsert_nodup g (key p) (val p) h)

/-- The key set after folding upserts is the initial key set united with
the keys of the processed inputs. -/
lemma foldl_upsert_keys_toFinset {κ α β : Type} [DecidableEq κ]
    (key : β → κ) (val : β → α) :
    ∀ (l : List β) (g : List (κ × List α)),
      ((l.foldl (fun g p => upsert g (key p) (val p)) g).map Prod.fst).toFinset =
        (g.map Prod.fst).toFinset ∪ (l.map key).toFinset
  | [], g => by simp
  | p :: rest, g => by
      rw [List.foldl_cons, foldl_upsert_keys_toFinset key val rest,
        upsert_map_fst]
      by_cases hm : key p ∈ g.map Prod.fst
      · rw [if_pos hm]
        ext x
        simp only [Finset.mem_union, List.mem_toFinset, List.map_cons,
          List.mem_cons]
        constructor
        · rintro (hx | hx)
          · exact Or.inl hx
          · exact Or.inr (Or.inr hx)
        · rintro (hx | hx | hx)
          · exact Or.inl hx
          · exact Or.inl (hx ▸ hm)
          · exact Or.inr hx
      · rw [if_neg hm]
        ext x
        simp only [Finset.mem_union, List.mem_toFinset, List.mem_append,
          List.mem_singleton, List.map_cons, List.mem_cons]
        tauto

/-- With nodup keys, looking each key up returns exactly the stored value
lists, in order. -/
lemma lookup_aligned :
    ∀ (groups : List (Color × List Point)), (groups.map Prod.fst).Nodup →
      (groups.map Prod.fst).map (fun c => lookupGroup groups c) =
        groups.map Prod.snd
  | [], _ => rfl
  | (k, vs) :: rest, h => by
      have hkn : k ∉ rest.map Prod.fst := (List.nodup_cons.mp h).1
      have hnd : (rest.map Prod.fst).Nodup := (List.nodup_cons.mp h).2
      have hk : lookupGroup ((k, vs) :: rest) k = vs := by
        unfold lookupGroup
        rw [List.find?_cons_of_pos _ (by simp)]
      have hrest : ∀ c ∈ rest.map Prod.fst,
          lookupGroup ((k, vs) :: rest) c = lookupGroup rest c := by
        intro c hc
        have hne : ¬ k = c := fun he => hkn (he ▸ hc)
        unfold lookupGroup
        rw [List.find?_cons_of_neg _ (by simp [hne])]
      simp only [List.map_cons]
      rw [hk, List.map_congr_left hrest, lookup_aligned rest hnd]

/-- `countP` distributes over `flatMap` as a sum. -/
lemma countP_flatMap {α β : Type} (p : β → Bool) :
    ∀ (l : List α) (f : α → List β),
      (l.flatMap f).countP p = (l.map (fun a => (f a).countP p)).sum
  | [], _ => rfl
  | a :: rest, f => by
      rw [List.flatMap_cons, List.countP_append, countP_flatMap p rest f,
        List.map_cons, List.sum_cons]

/-- Summing the constant 1 over a list gives its length. -/
lemma sum_map_one {α : Type} :
    ∀ l : List α, (l.map (fun _ => (1 : ℕ))).sum = l.length
  | [] => rfl
  | _ :: rest => by
      simp only [List.map_cons, List.sum_cons, sum_map_one rest, List.length_cons]
      omega

/-- Action counts of one cell: one MoveTo and one Click per point of the
cell, and no SelectColor. -/
lemma cellActions_counts (cell : List Point) :
    (cellActions cell).countP isMoveAction = cell.length ∧
    (cellActions cell).countP isClickAction = cell.length ∧
    (cellActions cell).countP isSelectAction = 0 := by
  have hlen : (sortPixelsNN cell).length = cell.length :=
    (nnReorder_perm cell).length_eq
  unfold cellActions
  refine ⟨?_, ?_, ?_⟩
  · rw [countP_flatMap]
    have h1 : ∀ x ∈ sortPixelsNN cell,
        ([PlannedAction.MoveTo x, PlannedAction.Click].countP isMoveAction) = 1 :=
      fun x _ => rfl
    rw [List.map_congr_left h1, sum_map_one, hlen]
  · rw [countP_flatMap]
    have h1 : ∀ x ∈ sortPixelsNN cell,
        ([PlannedAction.MoveTo x, PlannedAction.Click].countP isClickAction) = 1 :=
      fun x _ => rfl
    rw [List.map_congr_left h1, sum_map_one, hlen]
  · rw [countP_flatMap]
    have h1 : ∀ x ∈ sortPixelsNN cell,
        ([PlannedAction.MoveTo x, PlannedAction.Click].countP isSelectAction) = 0 :=
      fun x _ => rfl
    rw [List.map_congr_left h1]
    simp

/-- Action counts of one color group: exactly one SelectColor, and one
MoveTo and one Click per point of the group. -/
lemma colorActions_counts (r : Region) (points : List Point) (c : Color) :
    (colorActions r points c).countP isSelectAction = 1 ∧
    (colorActions r points c).countP isMoveAction = points.length ∧
    (colorActions r points c).countP isClickAction = points.length := by
  have hcells : vcount (gridCells r points) = points.length := by
    have := foldl_upsert_vcount (gridKey r) (fun p : Point => p) points []
    simpa [gridCells, vcount] using this
  unfold colorActions
  refine ⟨?_, ?_, ?_⟩
  · rw [List.countP_cons, countP_flatMap]
    have h1 : ∀ cell ∈ gridCells r points,
        (cellActions cell.2).countP isSelectAction = 0 :=
      fun cell _ => (cellActions_counts cell.2).2.2
    rw [List.map_congr_left h1]
    simp [isSelectAction]
  · rw [List.countP_cons, countP_flatMap]
    have h1 : ∀ cell ∈ gridCells r points,
        (cellActions cell.2).countP isMoveAction = cell.2.length :=
      fun cell _ => (cellActions_counts cell.2).1
    rw [List.map_congr_left h1]
    simp [isMoveAction, vcount] at hcells ⊢
    exact hcells
  · rw [List.countP_cons, countP_flatMap]
    have h1 : ∀ cell ∈ gridCells r points,
        (cellActions cell.2).countP isClickAction = cell.2.length :=
      fun cell _ => (cellActions_counts cell.2).2.1
    rw [List.map_congr_left h1]
    simp [isClickAction, vcount] at hcells ⊢
    exact hcells

/-- C1: in the full pixel-style action stream, the number of SelectColor
actions equals the number of distinct palette colors that at least one
visible pixel maps to, and the numbers of MoveTo and of Click actions each
equal the number of visible, non-background pixels (skipped white or
transparent pixels produce no actions, being excluded from
`visiblePixels`). -/
theorem draw_image_pixel_plan_counts (q : Color → Color) (r : Region)
    (bmp : Bitmap) :
    (draw_image_pixel_plan q r bmp).countP isSelectAction =
      ((visiblePixels bmp).map (fun p => q (rgbOf p.2))).toFinset.card ∧
    (draw_image_pixel_plan q r bmp).countP isMoveAction =
      (visiblePixels bmp).length ∧
    (draw_image_pixel_plan q r bmp).countP isClickAction =
      (visiblePixels bmp).length := by
  have hplan : draw_image_pixel_plan q r bmp =
      (sortedColors (groupByColor q r (pixelWidth r (bmpWidth bmp))
        (pixelHeight r (bmpHeight bmp)) (visiblePixels bmp))).flatMap
        (fun c => colorActions r
          (lookupGroup (groupByColor q r (pixelWidth r (bmpWidth bmp))
            (pixelHeight r (bmpHeight bmp)) (visiblePixels bmp)) c) c) := rfl
  have hnodup : ((groupByColor q r (pixelWidth r (bmpWidth bmp))
      (pixelHeight r (bmpHeight bmp)) (visiblePixels bmp)).map Prod.fst).Nodup := by
    have := foldl_upsert_nodup (fun p : (ℕ × ℕ) × RGBA => q (rgbOf p.2))
      (fun p => pixelPos r (pixelWidth r (bmpWidth bmp))
        (pixelHeight r (bmpHeight bmp)) p.1.1 p.1.2)
      (visiblePixels bmp) [] (by simp)
    simpa [groupByColor] using this
  have hperm : List.Perm
      (sortedColors (groupByColor q r (pixelWidth r (bmpWidth bmp))
        (pixelHeight r (bmpHeight bmp)) (visiblePixels bmp)))
      ((groupByColor q r (pixelWidth r (bmpWidth bmp))
        (pixelHeight r (bmpHeight bmp)) (visiblePixels bmp)).map Prod.fst) :=
    List.mergeSort_perm _ _
  refine ⟨?_, ?_, ?_⟩
  · rw [hplan, countP_flatMap]
    have h1 : ∀ c ∈ sortedColors (groupByColor q r (pixelWidth r (bmpWidth bmp))
        (pixelHeight r (bmpHeight bmp)) (visiblePixels bmp)),
        (colorActions r (lookupGroup (groupByColor q r (pixelWidth r (bmpWidth bmp))
          (pixelHeight r (bmpHeight bmp)) (visiblePixels bmp)) c) c).countP
          isSelectAction = 1 :=
      fun c _ => (colorActions_counts r _ c).1
    rw [List.map_congr_left h1, sum_map_one, hperm.length_eq,
      ← List.toFinset_card_of_nodup hnodup]
    congr 1
    have := foldl_upsert_keys_toFinset
      (fun p : (ℕ × ℕ) × RGBA => q (rgbOf p.2))
      (fun p => pixelPos r (pixelWidth r (bmpWidth bmp))
        (pixelHeight r (bmpHeight bmp)) p.1.1 p.1.2)
      (visiblePixels bmp) []
    simpa [groupByColor] using this
  · rw [hplan, countP_flatMap]
    have h1 : ∀ c ∈ sortedColors (groupByColor q r (pixelWidth r (bmpWidth bmp))
        (pixelHeight r (bmpHeight bmp)) (visiblePixels bmp)),
        (colorActions r (lookupGroup (groupByColor q r (pixelWidth r (bmpWidth bmp))
          (pixelHeight r (bmpHeight bmp)) (visiblePixels bmp)) c) c).countP
          isMoveAction =
          (lookupGroup (groupByColor q r (pixelWidth r (bmpWidth bmp))
            (pixelHeight r (bmpHeight bmp)) (visiblePixels bmp)) c).length :=
      fun c _ => (colorActions_counts r _ c).2.1
    rw [List.map_congr_left h1, (hperm.map _).sum_eq]
    rw [show ((groupByColor q r (pixelWidth r (bmpWidth bmp))
        (pixelHeight r (bmpHeight bmp)) (visiblePixels bmp)).map Prod.fst).map
        (fun c => (lookupGroup (groupByColor q r (pixelWidth r (bmpWidth bmp))
          (pixelHeight r (bmpHeight bmp)) (visiblePixels bmp)) c).length) =
        (((groupByColor q r (pixelWidth r (bmpWidth bmp))
          (pixelHeight r (bmpHeight bmp)) (visiblePixels bmp)).map Prod.fst).map
          (fun c => lookupGroup (groupByColor q r (pixelWidth r (bmpWidth bmp))
            (pixelHeight r (bmpHeight bmp)) (visiblePixels bmp)) c)).map
          List.length from (List.map_map _ _ _).symm]
    rw [lookup_aligned _ hnodup, List.map_map]
    have := foldl_upsert_vcount (fun p : (ℕ × ℕ) × RGBA => q (rgbOf p.2))
      (fun p => pixelPos r (pixelWidth r (bmpWidth bmp))
        (pixelHeight r (bmpHeight bmp)) p.1.1 p.1.2)
      (visiblePixels bmp) []
    simpa [groupByColor, vcount, Function.comp] using this
  · rw [hplan, countP_flatMap]
    have h1 : ∀ c ∈ sortedColors (groupByColor q r (pixelWidth r (bmpWidth bmp))
        (pixelHeight r (bmpHeight bmp)) (visiblePixels bmp)),
        (colorActions r (lookupGroup (groupByColor q r (pixelWidth r (bmpWidth bmp))
          (pixelHeight r (bmpHeight bmp)) (visiblePixels bmp)) c) c).countP
          isClickAction =
          (lookupGroup (groupByColor q r (pixelWidth r (bmpWidth bmp))
            (pixelHeight r (bmpHeight bmp)) (visiblePixels bmp)) c).length :=
      fun c _ => (colorActions_counts r _ c).2.2
    rw [List.map_congr_left h1, (hperm.map _).sum_eq]
    rw [show ((groupByColor q r (pixelWidth r (bmpWidth bmp))
        (pixelHeight r (bmpHeight bmp)) (visiblePixels bmp)).map Prod.fst).map
        (fun c => (lookupGroup (groupByColor q r (pixelWidth r (bmpWidth bmp))
          (pixelHeight r (bmpHeight bmp)) (visiblePixels bmp)) c).length) =
        (((groupByColor q r (pixelWidth r (bmpWidth bmp))
          (pixelHeight r (bmpHeight bmp)) (visiblePixels bmp)).map Prod.fst).map
          (fun c => lookupGroup (groupByColor q r (pixelWidth r (bmpWidth bmp))
            (pixelHeight r (bmpHeight bmp)) (visiblePixels bmp)) c)).map
          List.length from (List.map_map _ _ _).symm]
    rw [lookup_aligned _ hnodup, List.map_map]
    have := foldl_upsert_vcount (fun p : (ℕ × ℕ) × RGBA => q (rgbOf p.2))
      (fun p => pixelPos r (pixelWidth r (bmpWidth bmp))
        (pixelHeight r (bmpHeight bmp)) p.1.1 p.1.2)
      (visiblePixels bmp) []
    simpa [groupByColor, vcount, Function.comp] using this

end AutoDrawBot
